import Mathlib

/-!
Verification of the MiniLua interpreter core against its specification.

The Lean definitions below are shallow embeddings of the C++ sources:

* `MiniLua.Ts`     — the tree-sitter wrapper (`ts` namespace): source
  locations, edits and `Tree::edit`.
* `MiniLua.Rt`     — the `lua::rt` force-back machinery from
  `luainterpreter.h` (`sourceval::forceValue`).
* `MiniLua.Facade` — the public `minilua` value model and environment
  from `minilua.cpp` (`Table::operator==`, `Environment::get`).
* `MiniLua.Details` — the tree-walking evaluator from
  `minilua::details::Interpreter` (`visit_statement`, the loop visitors,
  `visit_binary_operation`, `EvalResult::combine`).

Strings / source buffers are modelled as `List Char`, one entry per byte.
C++ exceptions are modelled as `Option.none` results.
-/

namespace MiniLua

namespace Ts

/-- A point in the source: row and column (`ts::Point`). -/
structure Point where
  row : Nat
  column : Nat
deriving DecidableEq, Repr

/-- A location: point plus byte offset (`ts::Location`). -/
structure Location where
  point : Point
  byte : Nat
deriving DecidableEq, Repr

/-- A byte range of the source (`ts::Range`).  The field `stop` models the
C++ field `end` (a reserved word in Lean); ranges are half-open on bytes. -/
structure Range where
  start : Location
  stop : Location
deriving DecidableEq, Repr

/-- A source buffer, one `Char` per byte of the C++ `std::string`. -/
abbrev Buf := List Char

/-- A single textual edit (`ts::Edit`): a range and a replacement. -/
structure Edit where
  range : Range
  replacement : Buf
deriving DecidableEq, Repr

/-- The pure effect of `source.replace(start.byte, end.byte - start.byte,
replacement)` inside `_apply_edit`: the bytes in `[start.byte, end.byte)`
are replaced by the replacement text. -/
def applyEditTotal (s : Buf) (e : Edit) : Buf :=
  s.take e.range.start.byte ++ e.replacement ++ s.drop e.range.stop.byte

/-- `_apply_edit` on the source buffer.  `std::string::replace` raises
`std::out_of_range` exactly when the start position exceeds the buffer
size; the exception is modelled as `none`. -/
def applyEdit (s : Buf) (e : Edit) : Option Buf :=
  if e.range.start.byte ≤ s.length then some (applyEditTotal s e) else none

/-- Insert an edit into a list sorted by descending start byte, before
the first element whose start byte it reaches or exceeds. -/
def insertDesc (e : Edit) : List Edit → List Edit
  | [] => [e]
  | f :: rest =>
    if f.range.start.byte ≤ e.range.start.byte then e :: f :: rest
    else f :: insertDesc e rest

/-- The `std::sort` call in `Tree::edit` with comparator
`edit1.range.start.byte > edit2.range.start.byte`: sort the edits by
descending start byte.  Modelled as a stable insertion sort — any
comparison sort yields this order when the start bytes are distinct;
for equal start bytes `std::sort`'s order is unspecified. -/
def sortDesc : List Edit → List Edit
  | [] => []
  | e :: rest => insertDesc e (sortDesc rest)

/-- The application loop of `Tree::edit`: apply the (already sorted)
edits to the buffer, left to right, propagating the out-of-range
failure. -/
def editGo : List Edit → Buf → Option Buf
  | [], s => some s
  | e :: rest, s =>
    match applyEdit s e with
    | none => none
    | some s1 => editGo rest s1

/-- `Tree::edit` restricted to its effect on the source buffer: sort the
edits by descending start byte, then apply them in that order.  (The
re-parse and changed-range computation that follow in the C++ code
concern only the external parser and are not modelled.)  Note the C++
code performs no overlap check; a comment in it merely states that it
"assumes that the edits are not overlapping or duplicate". -/
def treeEdit (edits : List Edit) (s : Buf) : Option Buf :=
  editGo (sortDesc edits) s

/-- Two edits are overlapping iff their byte ranges intersect
(spec §4.3). -/
def Overlapping (a b : Edit) : Bool :=
  decide (a.range.start.byte < b.range.stop.byte) &&
  decide (b.range.start.byte < a.range.stop.byte)

/-- Simultaneous substitution, the specification-side meaning of applying
an edit set: every edit's replacement is placed at the edit's byte range
*of the original buffer*.  The edit list must be ordered by descending
start byte with pairwise disjoint ranges, so all later edits live
entirely inside the untouched prefix `s.take e.range.start.byte`. -/
def substSpec : List Edit → Buf → Buf
  | [], s => s
  | e :: rest, s =>
    substSpec rest (s.take e.range.start.byte) ++ e.replacement ++
      s.drop e.range.stop.byte

/-- Total version of the application loop, used to factor the proofs;
`editGo` agrees with it whenever every application is in bounds. -/
def editGoTotal : List Edit → Buf → Buf
  | [], s => s
  | e :: rest, s => editGoTotal rest (applyEditTotal s e)

/-- An edit list is a well-formed descending chain for a buffer of length
`n`: every edit has `start ≤ end`, the first edit ends within `n`, and
all later edits end at or before the current edit's start.  This is
exactly the shape produced by sorting a pairwise-disjoint edit set with
distinct start bytes by descending start byte. -/
def WfChain : Nat → List Edit → Prop
  | _, [] => True
  | n, e :: rest =>
    e.range.start.byte ≤ e.range.stop.byte ∧ e.range.stop.byte ≤ n ∧
      WfChain e.range.start.byte rest

/-- Helper for building concrete edits in the theorems below; the point
components do not influence the buffer transformation and are zeroed. -/
def mkEdit (a b : Nat) (r : Buf) : Edit :=
  { range := { start := { point := ⟨0, 0⟩, byte := a },
               stop := { point := ⟨0, 0⟩, byte := b } },
    replacement := r }

end Ts

namespace Rt

/-- Modelled from the spec: `LuaToken` (from `luaast.h`, which is not in
the sources) identifies the source range of a lexed token; only its role
as an edit location matters here. -/
structure LuaToken where
  pos : Nat
  length : Nat
deriving DecidableEq, Repr

/-- Modelled from the spec: the runtime value type `val` of the `lua::rt`
layer (from `luaast.h`, not in the sources): Nil, Bool, Number, String.
Numbers are modelled as integers; the double carrier and the table and
function variants are not needed by the claims about this layer. -/
inductive val where
  | nil
  | boolean (b : Bool)
  | number (n : Int)
  | str (s : String)
deriving DecidableEq, Repr

/-- Modelled from the spec: `val::to_string` (not in the sources).  Spec
§4.2 replacement rules: `nil`, `true`/`false`, numbers printed
canonically, strings quoted. -/
def val.to_string : val → String
  | .nil => "nil"
  | .boolean true => "true"
  | .boolean false => "false"
  | .number n => toString n
  | .str s => "\"" ++ s ++ "\""

/-- A proposed assignment to a source token (`lua::rt::SourceAssignment`):
the token to rewrite and its replacement text. -/
structure SourceAssignment where
  token : LuaToken
  replacement : String
deriving DecidableEq, Repr

/-- `lua::rt::sourceval`: the source expression of a value whose origin
is a literal; it stores the literal's token. -/
structure sourceval where
  location : LuaToken
deriving DecidableEq, Repr

/-- `sourceval::forceValue` (`luainterpreter.h:104`): forcing a literal
to a target value proposes exactly one assignment, rewriting the stored
token to the printed form of the target. -/
def sourceval.forceValue (sv : sourceval) (v : val) : List SourceAssignment :=
  [{ token := sv.location, replacement := v.to_string }]

end Rt

namespace Facade

/-- The public `minilua::Value` variant from `minilua.cpp` (Nil, Bool,
Number, String, Table).  Numbers are modelled as integers (the claims
about this layer do not exercise double arithmetic); the NativeFunction
variant is omitted (it has no equality and no claim mentions it).
A table value holds a reference: the index of its shared `Table::Impl`
in the table store. -/
inductive Value where
  | nil
  | boolean (b : Bool)
  | number (n : Int)
  | str (s : String)
  | table (ref : Nat)
deriving DecidableEq, Repr

/-- The contents of one `Table::Impl`: the `std::unordered_map<Value,
Value>`, modelled as an association list with unique keys. -/
abbrev TableData := List (Value × Value)

/-- The heap of `Table::Impl` objects.  Distinct indices are distinct
impl objects; `Table` copies share the index (the C++ copy constructor
copies the owning pointer). -/
abbrev Store := List TableData

mutual

/-- `minilua::Value::operator==` (`minilua.cpp:140`): compare the
variants; the table case delegates to `Table::operator==`.  The fuel
bounds the recursion depth (the C++ code would recurse through nested
tables; no claim exercises depth beyond the fuel supplied). -/
def valueBeq (store : Store) : Nat → Value → Value → Bool
  | 0, _, _ => false
  | _ + 1, .nil, .nil => true
  | _ + 1, .boolean a, .boolean b => a == b
  | _ + 1, .number a, .number b => a == b
  | _ + 1, .str a, .str b => a == b
  | fuel + 1, .table a, .table b => tableBeq store fuel a b
  | _ + 1, _, _ => false

/-- `minilua::Table::operator==` (`minilua.cpp:78`): `a.impl->value ==
b.impl->value`, i.e. the two underlying `unordered_map`s are compared by
*content*: equal size and, for every entry of one, a matching key with
an equal mapped value in the other.  Identity of the impl objects is not
consulted. -/
def tableBeq (store : Store) : Nat → Nat → Nat → Bool
  | 0, _, _ => false
  | fuel + 1, a, b =>
    let ma := store.getD a []
    let mb := store.getD b []
    ma.length == mb.length &&
      ma.all fun kv =>
        mb.any fun kv2 =>
          valueBeq store fuel kv.1 kv2.1 && valueBeq store fuel kv.2 kv2.2

end

/-- The public `minilua::Environment` from `minilua.cpp`: a single global
map from names to values. -/
structure Environment where
  global : List (String × Value)
deriving DecidableEq, Repr

/-- `minilua::Environment::get` (`minilua.cpp:173`): `global.at(name)`.
`std::unordered_map::at` throws `std::out_of_range` when the key is
absent; the exception is modelled as `none`. -/
def Environment.get (env : Environment) (name : String) : Option Value :=
  env.global.lookup name

end Facade

namespace Details

/-- The source-change tree (spec §3; `source_change.hpp` is not in the
sources).  The only construction the evaluator performs is
`SourceChangeCombination({*lhs, *rhs})` in `combine_source_changes`
(interpreter.cpp:300), so the And/Or nodes are modelled with two
children. -/
inductive SourceChangeTree where
  | change (e : Ts.Edit)
  | combination (lhs rhs : SourceChangeTree)
  | alternative (lhs rhs : SourceChangeTree)
deriving DecidableEq, Repr

/-- The `minilua::Value` used by the details evaluator (`values.hpp` is
not in the sources; modelled from the spec §3).  Numbers are modelled as
integers: no claim about the evaluator depends on the double carrier.
Origins are omitted: no claim under study mentions them.  Native
functions — the only callables `visit_function_call` exercises — are
modelled as constant callables: a return value plus an optional source
change.  Tables are not needed by these claims. -/
inductive Value where
  | nil
  | boolean (b : Bool)
  | number (n : Int)
  | str (s : String)
  | fn (ret : Value) (change : Option SourceChangeTree)
deriving DecidableEq, Repr

/-- Lua truthiness (spec §4.1): only Nil and false are falsy. -/
def truthy : Value → Bool
  | .nil => false
  | .boolean false => false
  | _ => true

/-- Modelled from the spec §4.1 (`values.cpp` is not in the sources):
arithmetic requires Number operands (the string-to-number coercion of
the spec is not modelled; no claim exercises it).  Failure (`none`)
models the interpreter error the operator raises.  The call-site
`Range` argument only tags origins and is omitted. -/
def Value.add : Value → Value → Option Value
  | .number a, .number b => some (.number (a + b))
  | _, _ => none

/-- Modelled from the spec §4.1: subtraction on numbers. -/
def Value.sub : Value → Value → Option Value
  | .number a, .number b => some (.number (a - b))
  | _, _ => none

/-- Modelled from the spec §4.1: multiplication on numbers. -/
def Value.mul : Value → Value → Option Value
  | .number a, .number b => some (.number (a * b))
  | _, _ => none

/-- Modelled from the spec §4.1: division.  True float division is
outside the integer number model; only exact divisions are given a
result.  No claim exercises this operator. -/
def Value.div : Value → Value → Option Value
  | .number a, .number b =>
    if b ≠ 0 ∧ a % b = 0 then some (.number (a / b)) else none
  | _, _ => none

/-- Modelled from the spec §4.1: `^` via `pow`; negative exponents are
outside the integer model.  No claim exercises this operator. -/
def Value.pow : Value → Value → Option Value
  | .number a, .number b =>
    if 0 ≤ b then some (.number (a ^ b.toNat)) else none
  | _, _ => none

/-- Modelled from the spec §4.1: Lua modulo `a - floor(a/b)*b` (sign
follows the divisor), i.e. integer floor-mod; `b = 0` gives NaN in the
double model, which is not representable here. -/
def Value.mod : Value → Value → Option Value
  | .number a, .number b =>
    if b ≠ 0 then some (.number (Int.fmod a b)) else none
  | _, _ => none

/-- Modelled from the spec §4.1: bitwise and on integer-valued numbers
(the 64-bit truncation is a no-op in the integer model). -/
def Value.bit_and : Value → Value → Option Value
  | .number a, .number b => some (.number (Int.land a b))
  | _, _ => none

/-- Modelled from the spec §4.1: bitwise or. -/
def Value.bit_or : Value → Value → Option Value
  | .number a, .number b => some (.number (Int.lor a b))
  | _, _ => none

/-- Modelled from the spec §4.1: `a and b` returns `a` if `a` is falsy,
else `b`.  (Note: this is the *value* operator; whether the evaluator
evaluates `b` at all is claim C3, decided by `visit_binary_operation`.) -/
def Value.logic_and (a b : Value) : Option Value :=
  some (if truthy a then b else a)

/-- Modelled from the spec §4.1: `a or b` returns `a` if `a` is truthy,
else `b`. -/
def Value.logic_or (a b : Value) : Option Value :=
  some (if truthy a then a else b)

/-- Modelled from the spec §4.1: comparison — numeric on numbers,
lexicographic on strings, error otherwise. -/
def Value.less_than : Value → Value → Option Value
  | .number a, .number b => some (.boolean (decide (a < b)))
  | .str a, .str b => some (.boolean (decide (a < b)))
  | _, _ => none

/-- Modelled from the spec §4.1: `<=`. -/
def Value.less_than_or_equal : Value → Value → Option Value
  | .number a, .number b => some (.boolean (decide (a ≤ b)))
  | .str a, .str b => some (.boolean (decide (a ≤ b)))
  | _, _ => none

/-- Modelled from the spec §4.1: `>`. -/
def Value.greater_than : Value → Value → Option Value
  | .number a, .number b => some (.boolean (decide (b < a)))
  | .str a, .str b => some (.boolean (decide (b < a)))
  | _, _ => none

/-- Modelled from the spec §4.1: `>=`. -/
def Value.greater_than_or_equal : Value → Value → Option Value
  | .number a, .number b => some (.boolean (decide (b ≤ a)))
  | .str a, .str b => some (.boolean (decide (b ≤ a)))
  | _, _ => none

/-- Modelled from the spec §4.1: `==` — variantwise equality (structural
in this model; NaN is not representable in the integer number model, and
no claim compares function values). -/
def Value.equals (a b : Value) : Option Value :=
  some (.boolean (decide (a = b)))

/-- Modelled from the spec §4.1: `~=`. -/
def Value.unequals (a b : Value) : Option Value :=
  some (.boolean (!decide (a = b)))

/-- Modelled from the spec §4.1: `..` accepts String or Number operands,
numbers coerced to their string form. -/
def concatArg : Value → Option String
  | .str s => some s
  | .number n => some (toString n)
  | _ => none

/-- Modelled from the spec §4.1: concatenation. -/
def Value.concat (a b : Value) : Option Value :=
  match concatArg a, concatArg b with
  | some x, some y => some (.str (x ++ y))
  | _, _ => none

/-- Modelled from the spec §4.1: unary minus, domain-checked. -/
def Value.negate : Value → Option Value
  | .number n => some (.number (-n))
  | _ => none

/-- Modelled from the spec §4.1: `not` — falsy becomes true, everything
else false. -/
def Value.invert (v : Value) : Option Value :=
  some (.boolean (!truthy v))

/-- Modelled from the spec §4.1: `#` — byte length on strings (tables
are not part of this evaluator model); error otherwise. -/
def Value.len : Value → Option Value
  | .str s => some (.number (s.length : Int))
  | _ => none

/-- The binary operators dispatched by `visit_binary_operation`
(interpreter.cpp:996-1033), in source order. -/
inductive BinOp where
  | eq | neq | geq | gt | leq | lt | add | sub | mul | div | pow | mod
  | bitAnd | bitOr | logicAnd | logicOr | concat
deriving DecidableEq, Repr

/-- The unary operators dispatched by `visit_unary_operation`
(interpreter.cpp:1048-1057). -/
inductive UnOp where
  | negOp | notOp | lenOp
deriving DecidableEq, Repr

/-- Expressions, mirroring the node kinds consumed by
`visit_expression` (interpreter.cpp:932-969): literals, identifiers,
unary and binary operations, function calls. -/
inductive Expr where
  | number (n : Int)
  | boolTrue
  | boolFalse
  | nilLit
  | strLit (s : String)
  | ident (name : String)
  | unop (op : UnOp) (e : Expr)
  | binop (op : BinOp) (lhs rhs : Expr)
  | call (name : String) (args : List Expr)
deriving Repr

/-- Statements, mirroring the node kinds dispatched by
`visit_statement` (interpreter.cpp:452-473). -/
inductive Stmt where
  | varDecl (name : String) (e : Expr)
  | localDecl (name : String) (e : Option Expr)
  | doStmt (body : List Stmt)
  | ifStmt (cond : Expr) (thenBody : List Stmt)
      (elseifs : List (Expr × List Stmt)) (elseBody : Option (List Stmt))
  | whileStmt (cond : Expr) (body : List Stmt)
  | repeatStmt (body : List Stmt) (cond : Expr)
  | breakStmt
  | returnStmt (es : List Expr)
  | callStmt (name : String) (args : List Expr)
deriving Repr

/-- `minilua::details::EvalResult` (interpreter.cpp:290): the value, the
control-flow flags, and the accumulated source change. -/
structure EvalResult where
  value : Value
  do_break : Bool
  do_return : Option (List Value)
  source_change : Option SourceChangeTree
deriving DecidableEq, Repr

/-- The default constructor `EvalResult()` (interpreter.cpp:291): Nil
value, no break, no return, no source change. -/
def EvalResult.empty : EvalResult := ⟨.nil, false, none, none⟩

/-- `combine_source_changes` (interpreter.cpp:296): two changes become
an And combination; otherwise whichever side is present. -/
def combineSourceChanges :
    Option SourceChangeTree → Option SourceChangeTree → Option SourceChangeTree
  | some l, some r => some (.combination l r)
  | some l, none => some l
  | none, r => r

/-- `EvalResult::combine` (interpreter.cpp:308): the other result's
value and flags replace this one's; the source changes are combined. -/
def EvalResult.combine (self other : EvalResult) : EvalResult :=
  { value := other.value
    do_break := other.do_break
    do_return := other.do_return
    source_change := combineSourceChanges self.source_change other.source_change }

/-- One lexical scope: names bound to values. -/
abbrev Scope := List (String × Value)

/-- Modelled from the spec §3/§4.4: `minilua::details::Env`
(`environment.hpp` is not in the sources): a stack of local scopes,
innermost first, over the persistent global scope. -/
structure Env where
  scopes : List Scope
  global : Scope
deriving DecidableEq, Repr

/-- Insert-or-assign in one scope. -/
def scopeSet : Scope → String → Value → Scope
  | [], name, v => [(name, v)]
  | (k, w) :: rest, name, v =>
    if k = name then (k, v) :: rest else (k, w) :: scopeSet rest name v

/-- Search the scope stack innermost-outward. -/
def lookupScopes : List Scope → String → Option Value
  | [], _ => none
  | s :: rest, name =>
    match s.lookup name with
    | some v => some v
    | none => lookupScopes rest name

/-- Modelled from the spec §4.4: `get_var` searches innermost-outward,
finally the global scope; a missing name yields Nil. -/
def Env.get_var (env : Env) (name : String) : Value :=
  match lookupScopes env.scopes name with
  | some v => v
  | none =>
    match env.global.lookup name with
    | some v => v
    | none => .nil

/-- Modelled from the spec §4.4: `set_local` binds in the innermost
scope (at the root, that is the global scope). -/
def Env.set_local (env : Env) (name : String) (v : Value) : Env :=
  match env.scopes with
  | [] => { env with global := scopeSet env.global name v }
  | s :: rest => { env with scopes := scopeSet s name v :: rest }

/-- Assign to the nearest scope that already binds the name, if any. -/
def setInScopes : List Scope → String → Value → Option (List Scope)
  | [], _, _ => none
  | s :: rest, name, v =>
    if (s.lookup name).isSome then some (scopeSet s name v :: rest)
    else (setInScopes rest name v).map (s :: ·)

/-- Modelled from the spec §4.4: `set_var` assigns to the nearest
visible binding, else to the global scope. -/
def Env.set_var (env : Env) (name : String) (v : Value) : Env :=
  match setInScopes env.scopes name v with
  | some scs => { env with scopes := scs }
  | none => { env with global := scopeSet env.global name v }

/-- `Interpreter::enter_block` (interpreter.cpp:400): `Env(env)` pushes
a fresh child scope over the current environment. -/
def enterBlock (env : Env) : Env := { env with scopes := [] :: env.scopes }

/-- Leaving a block: the block's own scope dies with the C++ `Env`
object; mutations to outer scopes persist. -/
def exitBlock (env : Env) : Env := { env with scopes := env.scopes.tail }

/-- The operator dispatch chain of `visit_binary_operation`
(interpreter.cpp:996-1033): each operator token selects the `Value`
method handed to `impl_operator`. -/
def binopImpl : BinOp → Value → Value → Option Value
  | .eq => Value.equals
  | .neq => Value.unequals
  | .geq => Value.greater_than_or_equal
  | .gt => Value.greater_than
  | .leq => Value.less_than_or_equal
  | .lt => Value.less_than
  | .add => Value.add
  | .sub => Value.sub
  | .mul => Value.mul
  | .div => Value.div
  | .pow => Value.pow
  | .mod => Value.mod
  | .bitAnd => Value.bit_and
  | .bitOr => Value.bit_or
  | .logicAnd => Value.logic_and
  | .logicOr => Value.logic_or
  | .concat => Value.concat

/-- The operator dispatch of `visit_unary_operation`
(interpreter.cpp:1048-1057). -/
def unopApply : UnOp → Value → Option Value
  | .negOp, v => v.negate
  | .notOp, v => v.invert
  | .lenOp, v => v.len

/-- `impl_operator` inside `visit_binary_operation`
(interpreter.cpp:990-994): invoke the operator on the two
already-computed operand results, then combine the *fresh* result with
the rhs result only, and set the value.  The lhs result contributes
nothing beyond its value. -/
def implOperator (f : Value → Value → Option Value)
    (lhsRes rhsRes : EvalResult) : Option EvalResult :=
  match f lhsRes.value rhsRes.value with
  | none => none
  | some v => some { EvalResult.empty.combine rhsRes with value := v }

/-- `Interpreter::visit_expression` with its helpers
`visit_unary_operation`, `visit_binary_operation` and
`visit_function_call` (interpreter.cpp:932-1105).  The fuel bounds the
recursion depth and is decremented on every recursive call; `none`
models both a raised interpreter error and fuel exhaustion.  Expressions
do not mutate the environment in this model (the only mutating
primitives are statements; the constant natives of `Value.fn` do not
touch their `CallContext`).  In the function-call branch the argument
results' source changes are discarded, mirroring the
`// TODO source_changes` in the sources, and calling a non-function
value raises. -/
def evalExpr : Nat → Env → Expr → Option EvalResult
  | 0, _, _ => none
  | _ + 1, _, .number n => some { EvalResult.empty with value := .number n }
  | _ + 1, _, .boolTrue => some { EvalResult.empty with value := .boolean true }
  | _ + 1, _, .boolFalse => some { EvalResult.empty with value := .boolean false }
  | _ + 1, _, .nilLit => some { EvalResult.empty with value := .nil }
  | _ + 1, _, .strLit s => some { EvalResult.empty with value := .str s }
  | _ + 1, env, .ident name =>
    some { EvalResult.empty with value := env.get_var name }
  | n + 1, env, .unop op e =>
    match evalExpr n env e with
    | none => none
    | some r =>
      match unopApply op r.value with
      | none => none
      | some v => some { r with value := v }
  | n + 1, env, .binop op lhs rhs =>
    match evalExpr n env lhs with
    | none => none
    | some lhsRes =>
      match evalExpr n env rhs with
      | none => none
      | some rhsRes => implOperator (binopImpl op) lhsRes rhsRes
  | n + 1, env, .call name args =>
    match args.mapM (fun a => evalExpr n env a) with
    | none => none
    | some _argResults =>
      match env.get_var name with
      | .fn ret change =>
        some { value := ret, do_break := false, do_return := none,
               source_change := change }
      | _ => none

mutual

/-- `Interpreter::visit_statement` (interpreter.cpp:447-482): dispatch
on the node kind, then — unless `do_return` is set — reset the result
value to Nil. -/
def evalStmt : Nat → Env → Stmt → Option (Env × EvalResult)
  | 0, _, _ => none
  | n + 1, env, s =>
    match evalStmtCore n env s with
    | none => none
    | some (env1, r) =>
      some (env1, if r.do_return.isSome then r else { r with value := .nil })

/-- The dispatch of `visit_statement` (interpreter.cpp:452-473) to the
per-kind visitors.  The function-call statement evaluates the same call
expression and converts the `CallResult` exactly as the expression path
does. -/
def evalStmtCore : Nat → Env → Stmt → Option (Env × EvalResult)
  | 0, _, _ => none
  | n + 1, env, .varDecl name e =>
    match evalExpr n env e with
    | none => none
    | some r => some (env.set_var name r.value, EvalResult.empty.combine r)
  | n + 1, env, .localDecl name oe =>
    match oe with
    | none => some (env.set_local name .nil, EvalResult.empty)
    | some e =>
      match evalExpr n env e with
      | none => none
      | some r => some (env.set_local name r.value, EvalResult.empty.combine r)
  | n + 1, env, .doStmt body =>
    match evalBody n (enterBlock env) body EvalResult.empty with
    | none => none
    | some (benv, r) => some (exitBlock benv, r)
  | n + 1, env, .ifStmt cond thenBody elseifs elseBody =>
    match evalExpr n env cond with
    | none => none
    | some condr =>
      let acc := EvalResult.empty.combine condr
      if truthy condr.value then
        match evalBody n (enterBlock env) thenBody acc with
        | none => none
        | some (benv, r) => some (exitBlock benv, r)
      else
        evalElseifs n env elseifs elseBody acc
  | n + 1, env, .whileStmt cond body => evalWhile n env cond body EvalResult.empty
  | n + 1, env, .repeatStmt body cond => evalRepeat n env body cond EvalResult.empty
  | _ + 1, env, .breakStmt => some (env, { EvalResult.empty with do_break := true })
  | n + 1, env, .returnStmt es =>
    match evalRetList n env es EvalResult.empty [] with
    | none => none
    | some (r, vals) => some (env, { r with do_return := some vals })
  | n + 1, env, .callStmt name args =>
    match evalExpr n env (.call name args) with
    | none => none
    | some r => some (env, r)

/-- The statement loop shared by the block visitors (`visit_do_statement`,
`visit_if_arm`, the while/repeat bodies, `visit_else_statement`):
evaluate the statements in order, combining results, and stop early on
`do_break` or `do_return`. -/
def evalBody : Nat → Env → List Stmt → EvalResult → Option (Env × EvalResult)
  | 0, _, _, _ => none
  | _ + 1, env, [], acc => some (env, acc)
  | n + 1, env, s :: rest, acc =>
    match evalStmt n env s with
    | none => none
    | some (env1, r) =>
      let acc1 := acc.combine r
      if acc1.do_break then some (env1, acc1)
      else if acc1.do_return.isSome then some (env1, acc1)
      else evalBody n env1 rest acc1

/-- The elseif/else chain of `visit_if_statement`
(interpreter.cpp:557-586) with `visit_elseif_statement` and
`visit_else_statement`: conditions are evaluated in the enclosing
environment and combined even when false; the first truthy arm's body
runs in a fresh block. -/
def evalElseifs : Nat → Env → List (Expr × List Stmt) → Option (List Stmt) →
    EvalResult → Option (Env × EvalResult)
  | 0, _, _, _, _ => none
  | n + 1, env, [], elseBody, acc =>
    match elseBody with
    | none => some (env, acc)
    | some body =>
      match evalBody n (enterBlock env) body acc with
      | none => none
      | some (benv, r) => some (exitBlock benv, r)
  | n + 1, env, (c, b) :: rest, elseBody, acc =>
    match evalExpr n env c with
    | none => none
    | some condr =>
      let acc1 := acc.combine condr
      if truthy condr.value then
        match evalBody n (enterBlock env) b acc1 with
        | none => none
        | some (benv, r) => some (exitBlock benv, r)
      else evalElseifs n env rest elseBody acc1

/-- `visit_while_statement` (interpreter.cpp:707-762): evaluate the
condition in the enclosing environment and combine it; if falsy, return;
otherwise run the body in a fresh block; `do_break` from the body is
*cleared* at the loop boundary, `do_return` propagates, and otherwise
the loop repeats. -/
def evalWhile : Nat → Env → Expr → List Stmt → EvalResult →
    Option (Env × EvalResult)
  | 0, _, _, _, _ => none
  | n + 1, env, cond, body, acc =>
    match evalExpr n env cond with
    | none => none
    | some condr =>
      let acc1 := acc.combine condr
      if truthy condr.value then
        match evalBody n (enterBlock env) body acc1 with
        | none => none
        | some (benv, acc2) =>
          if acc2.do_break then
            some (exitBlock benv, { acc2 with do_break := false })
          else if acc2.do_return.isSome then some (exitBlock benv, acc2)
          else evalWhile n (exitBlock benv) cond body acc2
      else some (env, acc1)

/-- `visit_repeat_until_statement` (interpreter.cpp:764-822): run the
body in a fresh block; `do_break` is cleared at the loop boundary and
`do_return` propagates; then the until condition is evaluated *in the
body's block environment* (`block_env`, interpreter.cpp:812) and
combined; a truthy condition exits the loop. -/
def evalRepeat : Nat → Env → List Stmt → Expr → EvalResult →
    Option (Env × EvalResult)
  | 0, _, _, _, _ => none
  | n + 1, env, body, cond, acc =>
    match evalBody n (enterBlock env) body acc with
    | none => none
    | some (benv, acc1) =>
      if acc1.do_break then
        some (exitBlock benv, { acc1 with do_break := false })
      else if acc1.do_return.isSome then some (exitBlock benv, acc1)
      else
        match evalExpr n benv cond with
        | none => none
        | some condr =>
          let acc2 := acc1.combine condr
          if truthy condr.value then some (exitBlock benv, acc2)
          else evalRepeat n (exitBlock benv) body cond acc2

/-- The expression loop of `visit_return_statement`
(interpreter.cpp:852-863): evaluate the returned expressions in order,
combine their results, and collect their values. -/
def evalRetList : Nat → Env → List Expr → EvalResult → List Value →
    Option (EvalResult × List Value)
  | 0, _, _, _, _ => none
  | _ + 1, _, [], acc, vals => some (acc, vals)
  | n + 1, env, e :: rest, acc, vals =>
    match evalExpr n env e with
    | none => none
    | some r => evalRetList n env rest (acc.combine r) (vals ++ [r.value])

end

end Details

namespace Ts

theorem wfChain_mono : ∀ {l : List Edit} {m n : Nat}, m ≤ n → WfChain m l → WfChain n l := by
  intro l m n h hw
  cases l with
  | nil => trivial
  | cons e rest => exact ⟨hw.1, hw.2.1.trans h, hw.2.2⟩

theorem start_le_length_applyEditTotal (s : Buf) (e : Edit)
    (h : e.range.start.byte ≤ s.length) :
    e.range.start.byte ≤ (applyEditTotal s e).length := by
  simp only [applyEditTotal, List.length_append, List.length_take]
  omega

theorem editGo_eq_total : ∀ (l : List Edit) (s : Buf), WfChain s.length l →
    editGo l s = some (editGoTotal l s) := by
  intro l
  induction l with
  | nil => intro s _; rfl
  | cons e rest ih =>
    intro s hw
    obtain ⟨h1, h2, h3⟩ := hw
    have hstart : e.range.start.byte ≤ s.length := h1.trans h2
    have happ : applyEdit s e = some (applyEditTotal s e) := by
      simp [applyEdit, hstart]
    have hchain : WfChain (applyEditTotal s e).length rest :=
      wfChain_mono (start_le_length_applyEditTotal s e hstart) h3
    simp [editGo, happ, editGoTotal, ih _ hchain]

theorem editGoTotal_append : ∀ (l : List Edit) (p q : Buf), WfChain p.length l →
    editGoTotal l (p ++ q) = editGoTotal l p ++ q := by
  intro l
  induction l with
  | nil => intro p q _; rfl
  | cons e rest ih =>
    intro p q hw
    obtain ⟨h1, h2, h3⟩ := hw
    have hstart : e.range.start.byte ≤ p.length := h1.trans h2
    have hsplit : applyEditTotal (p ++ q) e = applyEditTotal p e ++ q := by
      simp only [applyEditTotal, List.take_append_of_le_length hstart,
        List.drop_append_of_le_length h2, List.append_assoc]
    have hchain : WfChain (applyEditTotal p e).length rest :=
      wfChain_mono (start_le_length_applyEditTotal p e hstart) h3
    simp [editGoTotal, hsplit, ih _ q hchain]

theorem editGoTotal_eq_substSpec : ∀ (l : List Edit) (s : Buf), WfChain s.length l →
    editGoTotal l s = substSpec l s := by
  intro l
  induction l with
  | nil => intro s _; rfl
  | cons e rest ih =>
    intro s hw
    obtain ⟨h1, h2, h3⟩ := hw
    have hstart : e.range.start.byte ≤ s.length := h1.trans h2
    have hlen : (s.take e.range.start.byte).length = e.range.start.byte := by
      simp [List.length_take, Nat.min_eq_left hstart]
    have hchain : WfChain (s.take e.range.start.byte).length rest := by
      rw [hlen]; exact h3
    calc editGoTotal (e :: rest) s
        = editGoTotal rest
            (s.take e.range.start.byte ++
              (e.replacement ++ s.drop e.range.stop.byte)) := by
          simp [editGoTotal, applyEditTotal, List.append_assoc]
      _ = editGoTotal rest (s.take e.range.start.byte) ++
            (e.replacement ++ s.drop e.range.stop.byte) :=
          editGoTotal_append rest _ _ hchain
      _ = substSpec rest (s.take e.range.start.byte) ++
            (e.replacement ++ s.drop e.range.stop.byte) := by
          rw [ih _ hchain]
      _ = substSpec (e :: rest) s := by
          simp [substSpec, List.append_assoc]

theorem insertDesc_perm (e : Edit) : ∀ l : List Edit, (insertDesc e l).Perm (e :: l) := by
  intro l
  induction l with
  | nil => exact List.Perm.refl _
  | cons f rest ih =>
    by_cases h : f.range.start.byte ≤ e.range.start.byte
    · simp [insertDesc, h]
    · simp only [insertDesc, h, if_false]
      exact (ih.cons f).trans (List.Perm.swap e f rest)

theorem sortDesc_perm (edits : List Edit) : (sortDesc edits).Perm edits := by
  induction edits with
  | nil => exact List.Perm.refl _
  | cons e rest ih =>
    exact (insertDesc_perm e (sortDesc rest)).trans (ih.cons e)

theorem mem_insertDesc {x e : Edit} : ∀ {l : List Edit},
    x ∈ insertDesc e l → x = e ∨ x ∈ l := by
  intro l
  induction l with
  | nil => intro h; simpa [insertDesc] using h
  | cons f rest ih =>
    intro h
    by_cases hc : f.range.start.byte ≤ e.range.start.byte
    · simp only [insertDesc, hc, if_true, List.mem_cons] at h
      simp only [List.mem_cons]
      tauto
    · simp only [insertDesc, hc, if_false, List.mem_cons] at h
      rcases h with h | h
      · exact Or.inr (List.mem_cons.mpr (Or.inl h))
      · rcases ih h with h1 | h1
        · exact Or.inl h1
        · exact Or.inr (List.mem_cons.mpr (Or.inr h1))

theorem insertDesc_sorted (e : Edit) : ∀ l : List Edit,
    List.Pairwise (fun a b => b.range.start.byte ≤ a.range.start.byte) l →
    List.Pairwise (fun a b => b.range.start.byte ≤ a.range.start.byte)
      (insertDesc e l) := by
  intro l
  induction l with
  | nil => intro _; simp [insertDesc]
  | cons f rest ih =>
    intro hp
    obtain ⟨hhead, hrest⟩ := List.pairwise_cons.mp hp
    by_cases hc : f.range.start.byte ≤ e.range.start.byte
    · simp only [insertDesc, hc, if_true]
      refine List.pairwise_cons.mpr ⟨?_, hp⟩
      intro g hg
      rcases List.mem_cons.mp hg with rfl | hg1
      · exact hc
      · exact (hhead g hg1).trans hc
    · simp only [insertDesc, hc, if_false]
      refine List.pairwise_cons.mpr ⟨?_, ih hrest⟩
      intro g hg
      rcases mem_insertDesc hg with rfl | hg1
      · omega
      · exact hhead g hg1

theorem sortDesc_sorted (edits : List Edit) :
    List.Pairwise (fun e f => f.range.start.byte ≤ e.range.start.byte)
      (sortDesc edits) := by
  induction edits with
  | nil => simp [sortDesc]
  | cons e rest ih => exact insertDesc_sorted e (sortDesc rest) ih

theorem overlapping_symm (a b : Edit) : Overlapping a b = Overlapping b a := by
  simp [Overlapping, Bool.and_comm]

theorem wfChain_of_pairwise : ∀ (l : List Edit) (n : Nat),
    (∀ e ∈ l, e.range.start.byte ≤ e.range.stop.byte ∧ e.range.stop.byte ≤ n) →
    List.Pairwise (fun e f =>
      f.range.start.byte ≤ e.range.start.byte ∧
      (Overlapping e f = false ∧
       e.range.start.byte ≠ f.range.start.byte)) l →
    WfChain n l := by
  intro l
  induction l with
  | nil => intro n _ _; trivial
  | cons e rest ih =>
    intro n hmem hpw
    obtain ⟨hhead, hrest⟩ := List.pairwise_cons.mp hpw
    have hewf := hmem e (List.mem_cons_self e rest)
    refine ⟨hewf.1, hewf.2, ih e.range.start.byte ?_ hrest⟩
    intro f hf
    obtain ⟨hle, hov, hne⟩ := hhead f hf
    have hfwf := hmem f (List.mem_cons_of_mem e hf)
    have hnover : ¬(e.range.start.byte < f.range.stop.byte ∧
        f.range.start.byte < e.range.stop.byte) := by
      intro hcontra
      simp [Overlapping, hcontra.1, hcontra.2] at hov
    refine ⟨hfwf.1, ?_⟩
    by_cases hcase : e.range.start.byte < f.range.stop.byte
    · exact absurd ⟨hcase, by omega⟩ hnover
    · omega

theorem editGo_some_of_starts : ∀ (l : List Edit) (s : Buf),
    List.Pairwise (fun e f => f.range.start.byte ≤ e.range.start.byte) l →
    (∀ e ∈ l, e.range.start.byte ≤ s.length) →
    ∃ out, editGo l s = some out := by
  intro l
  induction l with
  | nil => intro s _ _; exact ⟨s, rfl⟩
  | cons e rest ih =>
    intro s hsor hmem
    obtain ⟨hhead, hrest⟩ := List.pairwise_cons.mp hsor
    have hs : e.range.start.byte ≤ s.length := hmem e (List.mem_cons_self e rest)
    have hlen := start_le_length_applyEditTotal s e hs
    obtain ⟨out, hout⟩ := ih (applyEditTotal s e) hrest
      (fun f hf => (hhead f hf).trans hlen)
    refine ⟨out, ?_⟩
    simp [editGo, applyEdit, hs, hout]

/-- Claim C4 counterexample: a concrete pair of edits whose byte ranges
intersect is applied by `Tree::edit` without any failure — the
overlapping set is silently applied, contradicting the claim that it is
reported to the caller as an error. -/
theorem overlapping_edits_applied_without_error :
    Overlapping (mkEdit 1 4 ['X', 'Y']) (mkEdit 2 3 ['Z']) = true ∧
    treeEdit [mkEdit 1 4 ['X', 'Y'], mkEdit 2 3 ['Z']]
        ['a', 'b', 'c', 'd', 'e', 'f'] =
      some ['a', 'X', 'Y', 'e', 'f'] :=
  ⟨rfl, rfl⟩

/-- Claim C4 (amended): `Tree::edit` performs no overlap detection.
Application can only fail because an edit's start byte falls outside the
current buffer; in particular every edit list whose start bytes lie
within the original buffer — overlapping or not — is applied silently,
with no error reported to the caller. -/
theorem treeEdit_no_overlap_detection (edits : List Edit) (s : Buf)
    (hstart : ∀ e ∈ edits, e.range.start.byte ≤ s.length) :
    ∃ out, treeEdit edits s = some out := by
  refine editGo_some_of_starts (sortDesc edits) s (sortDesc_sorted edits) ?_
  intro e he
  exact hstart e ((sortDesc_perm edits).mem_iff.mp he)

/-- Witness for the amended C4 at a concrete overlapping pair: the set
is overlapping, yet it is applied without error. -/
theorem treeEdit_no_overlap_detection_witness :
    Overlapping (mkEdit 0 3 ['Q']) (mkEdit 1 2 ['R', 'R']) = true ∧
    (∃ out, treeEdit [mkEdit 0 3 ['Q'], mkEdit 1 2 ['R', 'R']]
        ['a', 'b', 'c', 'd'] = some out) :=
  ⟨rfl, treeEdit_no_overlap_detection _ _ (by decide)⟩

/-- Claim C5: for every list of non-overlapping edits — with well-formed
in-bounds ranges and pairwise distinct start bytes (for equal start
bytes the order chosen by `std::sort` is unspecified) — `Tree::edit`
sorts the edits by descending start byte and applies them in that order,
and the resulting buffer equals the one obtained by substituting every
edit's replacement at its original byte range of the untouched source. -/
theorem treeEdit_nonoverlapping_is_substitution (edits : List Edit) (s : Buf)
    (hwf : ∀ e ∈ edits, e.range.start.byte ≤ e.range.stop.byte ∧
      e.range.stop.byte ≤ s.length)
    (hdisj : List.Pairwise (fun e f => Overlapping e f = false) edits)
    (hne : List.Pairwise (fun e f =>
      e.range.start.byte ≠ f.range.start.byte) edits) :
    treeEdit edits s = some (substSpec (sortDesc edits) s) := by
  have hperm := sortDesc_perm edits
  have hmem : ∀ e ∈ sortDesc edits, e.range.start.byte ≤ e.range.stop.byte ∧
      e.range.stop.byte ≤ s.length := fun e he => hwf e (hperm.mem_iff.mp he)
  have hdisj2 : List.Pairwise (fun e f => Overlapping e f = false)
      (sortDesc edits) :=
    (hperm.pairwise_iff fun hab => (overlapping_symm _ _).trans hab).mpr hdisj
  have hne2 : List.Pairwise (fun e f =>
      e.range.start.byte ≠ f.range.start.byte) (sortDesc edits) :=
    (hperm.pairwise_iff fun hab => hab.symm).mpr hne
  have hchain : WfChain s.length (sortDesc edits) :=
    wfChain_of_pairwise _ _ hmem
      ((sortDesc_sorted edits).and (hdisj2.and hne2))
  calc treeEdit edits s
      = some (editGoTotal (sortDesc edits) s) := editGo_eq_total _ _ hchain
    _ = some (substSpec (sortDesc edits) s) := by
        rw [editGoTotal_eq_substSpec _ _ hchain]

/-- Witness for C5 at a concrete non-overlapping pair, with the
simultaneous substitution evaluated. -/
theorem treeEdit_nonoverlapping_is_substitution_witness :
    treeEdit [mkEdit 1 2 ['X', 'X'], mkEdit 4 6 ['Y']]
        ['a', 'b', 'c', 'd', 'e', 'f'] =
      some (substSpec (sortDesc [mkEdit 1 2 ['X', 'X'], mkEdit 4 6 ['Y']])
        ['a', 'b', 'c', 'd', 'e', 'f']) ∧
    substSpec (sortDesc [mkEdit 1 2 ['X', 'X'], mkEdit 4 6 ['Y']])
        ['a', 'b', 'c', 'd', 'e', 'f'] =
      ['a', 'X', 'X', 'c', 'd', 'Y'] :=
  ⟨treeEdit_nonoverlapping_is_substitution _ _ (by decide) (by decide)
    (by decide), rfl⟩

end Ts

namespace Rt

/-- Claim C2: forcing a value whose origin is a literal at source
location L to any target value yields exactly one proposed source
assignment — an edit at L whose replacement text is the printed form of
the target. -/
theorem forceValue_literal_single_edit (sv : sourceval) (v : val) :
    (sv.forceValue v).length = 1 ∧
    sv.forceValue v = [{ token := sv.location, replacement := v.to_string }] :=
  ⟨rfl, rfl⟩

end Rt

namespace Facade

/-- Claim C1 (evaluation of the code at the failing input): two
separately-constructed empty tables — two distinct `Table::Impl`
objects in the store, both holding an empty map — compare *equal* under
`Table::operator==`, because the operator compares the maps' contents
(`a.impl->value == b.impl->value`) and never the impl identity.  The
claim (and Lua semantics, spec §3/§8) requires distinct tables to be
unequal, so equality by identity does not hold in the code. -/
theorem two_fresh_empty_tables_compare_equal :
    tableBeq [[], []] 1 0 1 = true ∧ (0 : Nat) ≠ 1 :=
  ⟨rfl, by decide⟩

/-- Claim C6 (evaluation of the code at the failing input): looking up
any name in an environment whose global map is empty does not yield Nil:
`Environment::get` is `global.at(name)`, and `unordered_map::at` raises
`std::out_of_range` (modelled as `none`) for a missing key.  The claim
(and spec §4.4) requires the lookup to produce Nil without raising. -/
theorem environment_get_missing_raises (name : String) :
    Environment.get ⟨[]⟩ name = none ∧
    Environment.get ⟨[]⟩ name ≠ some Value.nil :=
  ⟨rfl, fun h => nomatch h⟩

end Facade

namespace Details

theorem evalExpr_do_break : ∀ (n : Nat) (env : Env) (e : Expr) (r : EvalResult),
    evalExpr n env e = some r → r.do_break = false := by
  intro n
  induction n with
  | zero => intro env e r h; simp [evalExpr] at h
  | succ n ih =>
    intro env e r h
    cases e with
    | number k => simp only [evalExpr] at h; cases h; rfl
    | boolTrue => simp only [evalExpr] at h; cases h; rfl
    | boolFalse => simp only [evalExpr] at h; cases h; rfl
    | nilLit => simp only [evalExpr] at h; cases h; rfl
    | strLit s => simp only [evalExpr] at h; cases h; rfl
    | ident name => simp only [evalExpr] at h; cases h; rfl
    | unop op e1 =>
      simp only [evalExpr] at h
      split at h
      · exact Option.noConfusion h
      next r1 he =>
        split at h
        · exact Option.noConfusion h
        next v hv =>
          cases h
          exact ih env e1 r1 he
    | binop op lhs rhs =>
      simp only [evalExpr] at h
      split at h
      · exact Option.noConfusion h
      next lhsRes hl =>
        split at h
        · exact Option.noConfusion h
        next rhsRes hr =>
          simp only [implOperator] at h
          split at h
          · exact Option.noConfusion h
          next v hv =>
            cases h
            exact ih env rhs rhsRes hr
    | call name args =>
      simp only [evalExpr] at h
      split at h
      · exact Option.noConfusion h
      next vs ha =>
        split at h
        all_goals first
          | exact Option.noConfusion h
          | (cases h; rfl)

theorem evalWhile_do_break : ∀ (n : Nat) (env : Env) (cond : Expr)
    (body : List Stmt) (acc : EvalResult) (env1 : Env) (r : EvalResult),
    evalWhile n env cond body acc = some (env1, r) → r.do_break = false := by
  intro n
  induction n with
  | zero => intro env cond body acc env1 r h; simp [evalWhile] at h
  | succ n ih =>
    intro env cond body acc env1 r h
    simp only [evalWhile] at h
    split at h
    · exact Option.noConfusion h
    next condr hc =>
      split at h
      · split at h
        · exact Option.noConfusion h
        next benv acc2 hb =>
          split at h
          · cases h; rfl
          next hbk =>
            split at h
            next hrt =>
              cases h
              simpa using hbk
            next hrt =>
              exact ih _ _ _ _ _ _ h
      · cases h
        simpa [EvalResult.combine] using evalExpr_do_break n env cond condr hc

theorem evalRepeat_do_break : ∀ (n : Nat) (env : Env) (body : List Stmt)
    (cond : Expr) (acc : EvalResult) (env1 : Env) (r : EvalResult),
    evalRepeat n env body cond acc = some (env1, r) → r.do_break = false := by
  intro n
  induction n with
  | zero => intro env body cond acc env1 r h; simp [evalRepeat] at h
  | succ n ih =>
    intro env body cond acc env1 r h
    simp only [evalRepeat] at h
    split at h
    · exact Option.noConfusion h
    next benv acc1 hb =>
      split at h
      · cases h; rfl
      next hbk =>
        split at h
        next hrt =>
          cases h
          simpa using hbk
        next hrt =>
          split at h
          · exact Option.noConfusion h
          next condr hc =>
            split at h
            · cases h
              simpa [EvalResult.combine] using
                evalExpr_do_break n benv cond condr hc
            · exact ih _ _ _ _ _ _ h

/-- Claim C7: loops consume the break signal — whenever the evaluation
of a while statement or a repeat-until statement terminates with a
result, the EvalResult returned by the loop has `do_break = false`, even
when a break statement in the body caused the exit. -/
theorem loops_consume_break (n : Nat) (env env1 : Env) (s : Stmt)
    (r : EvalResult) (h : evalStmt n env s = some (env1, r))
    (hloop : (∃ c b, s = Stmt.whileStmt c b) ∨
      (∃ b c, s = Stmt.repeatStmt b c)) :
    r.do_break = false := by
  cases n with
  | zero => simp [evalStmt] at h
  | succ n =>
    simp only [evalStmt] at h
    split at h
    · exact Option.noConfusion h
    next env2 r0 hc =>
      have hr0 : r0.do_break = false := by
        rcases hloop with ⟨c, b, rfl⟩ | ⟨b, c, rfl⟩
        · cases n with
          | zero => simp [evalStmtCore] at hc
          | succ m =>
            simp only [evalStmtCore] at hc
            exact evalWhile_do_break _ _ _ _ _ _ _ hc
        · cases n with
          | zero => simp [evalStmtCore] at hc
          | succ m =>
            simp only [evalStmtCore] at hc
            exact evalRepeat_do_break _ _ _ _ _ _ _ hc
      split at h <;> (cases h; exact hr0)

/-- Witness for C7: `while true do break end` terminates via the break,
and the loop's EvalResult has `do_break = false`. -/
theorem loops_consume_break_witness :
    evalStmt 6 ⟨[], []⟩ (.whileStmt .boolTrue [.breakStmt]) =
      some (⟨[], []⟩, ⟨.nil, false, none, none⟩) ∧
    (⟨Value.nil, false, none, none⟩ : EvalResult).do_break = false :=
  ⟨rfl, loops_consume_break 6 ⟨[], []⟩ ⟨[], []⟩
    (.whileStmt .boolTrue [.breakStmt]) ⟨.nil, false, none, none⟩ rfl
    (Or.inl ⟨.boolTrue, [.breakStmt], rfl⟩)⟩

/-- Claim C8: in a repeat-until statement the until condition is
evaluated in the block environment produced by the loop body (so the
body's locals are visible to the condition), and — after a body pass
without break or return — the loop exits exactly when that condition
evaluates to a truthy value. -/
theorem repeat_condition_in_body_scope (n : Nat) (env benv : Env)
    (body : List Stmt) (cond : Expr) (acc acc1 condr : EvalResult)
    (hbody : evalBody n (enterBlock env) body acc = some (benv, acc1))
    (hnb : acc1.do_break = false) (hnr : acc1.do_return = none)
    (hcond : evalExpr n benv cond = some condr) :
    evalRepeat (n + 1) env body cond acc =
      (if truthy condr.value then some (exitBlock benv, acc1.combine condr)
       else evalRepeat n (exitBlock benv) body cond (acc1.combine condr)) := by
  simp only [evalRepeat, hbody, hnb, hnr, hcond, Option.isSome_none,
    Bool.false_eq_true, if_false]

/-- Witness for C8: `repeat local x = true until x` — the local `x`
declared in the body is read by the condition from the body's block
scope, the condition is truthy, and the loop exits after one pass. -/
theorem repeat_condition_in_body_scope_witness :
    evalRepeat 6 ⟨[], []⟩ [.localDecl "x" (some .boolTrue)] (.ident "x")
      EvalResult.empty =
      some (⟨[], []⟩, ⟨.boolean true, false, none, none⟩) :=
  (repeat_condition_in_body_scope 5 ⟨[], []⟩ ⟨[[("x", .boolean true)]], []⟩
    [.localDecl "x" (some .boolTrue)] (.ident "x") EvalResult.empty
    ⟨.nil, false, none, none⟩ ⟨.boolean true, false, none, none⟩
    rfl rfl rfl rfl).trans rfl

/-- Claim C3 (evaluation of the code at the failing input):
`visit_binary_operation` evaluates the right operand before even looking
at the operator, so there is no short-circuiting.  `false and (-"x")`
raises the error of evaluating `-"x"` (modelled as `none`) although the
falsy left operand already decides the result, and symmetrically for
`true or (-"x")`; moreover with a native `f` whose call produces a
source change, `false and f()` performs the call and the result carries
f's source change.  Under the claimed short-circuit none of the three
right operands would be evaluated. -/
theorem and_or_rhs_always_evaluated :
    evalExpr 3 ⟨[], []⟩
      (.binop .logicAnd .boolFalse (.unop .negOp (.strLit "x"))) = none ∧
    evalExpr 3 ⟨[], []⟩
      (.binop .logicOr .boolTrue (.unop .negOp (.strLit "x"))) = none ∧
    evalExpr 4 ⟨[], [("f", .fn (.number 1) (some (.change (Ts.mkEdit 0 1 ['q']))))]⟩
      (.binop .logicAnd .boolFalse (.call "f" [])) =
      some ⟨.boolean false, false, none,
        some (.change (Ts.mkEdit 0 1 ['q']))⟩ :=
  ⟨rfl, rfl, rfl⟩

/-- Claim C9: the EvalResult of a binary operation carries exactly the
source change produced while evaluating the right operand (and the right
operand's control-flow flags); the left operand's evaluation result
contributes nothing beyond its value — its source change is discarded. -/
theorem binop_keeps_only_rhs_source_change (n : Nat) (env : Env)
    (op : BinOp) (lhs rhs : Expr) (r : EvalResult)
    (h : evalExpr (n + 1) env (.binop op lhs rhs) = some r) :
    ∃ lhsRes rhsRes, evalExpr n env lhs = some lhsRes ∧
      evalExpr n env rhs = some rhsRes ∧
      r.source_change = rhsRes.source_change ∧
      r.do_break = rhsRes.do_break ∧ r.do_return = rhsRes.do_return := by
  simp only [evalExpr] at h
  split at h
  · exact Option.noConfusion h
  next lhsRes hl =>
    split at h
    · exact Option.noConfusion h
    next rhsRes hr =>
      simp only [implOperator] at h
      split at h
      · exact Option.noConfusion h
      next v hv =>
        cases h
        exact ⟨lhsRes, rhsRes, hl, hr, rfl, rfl, rfl⟩

/-- Witness for C9: `f() + 2` where the call to the native `f` produces
a source change — the binary operation's result carries no source
change, because only the right operand's (absent) change is kept and the
left operand's change is discarded. -/
theorem binop_keeps_only_rhs_source_change_witness :
    evalExpr 4 ⟨[], [("f", .fn (.number 1) (some (.change (Ts.mkEdit 0 1 ['q']))))]⟩
      (.binop .add (.call "f" []) (.number 2)) =
      some ⟨.number 3, false, none, none⟩ ∧
    (⟨Value.number 3, false, none, none⟩ : EvalResult).source_change = none := by
  refine ⟨rfl, ?_⟩
  obtain ⟨lhsRes, rhsRes, hl, hr, hsc, _, _⟩ :=
    binop_keeps_only_rhs_source_change 3
      ⟨[], [("f", .fn (.number 1) (some (.change (Ts.mkEdit 0 1 ['q']))))]⟩
      .add (.call "f" []) (.number 2) ⟨.number 3, false, none, none⟩ rfl
  have hrr : rhsRes = ⟨.number 2, false, none, none⟩ :=
    Option.some.inj (hr.symm.trans rfl)
  rw [hsc, hrr]

/-- Claim C10: the EvalResult of every statement evaluation has value
Nil unless `do_return` was set; in particular a bare function-call
statement's return value is reset to Nil by `visit_statement` and never
leaks as the statement's value. -/
theorem statement_value_nil_unless_return (n : Nat) (env env1 : Env)
    (s : Stmt) (r : EvalResult) (h : evalStmt n env s = some (env1, r))
    (hnr : r.do_return = none) : r.value = .nil := by
  cases n with
  | zero => simp [evalStmt] at h
  | succ n =>
    simp only [evalStmt] at h
    split at h
    · exact Option.noConfusion h
    next env2 r0 hc =>
      split at h
      next hrt =>
        cases h
        simp [hnr] at hrt
      next hrt =>
        cases h
        rfl

/-- Witness for C10: a bare call statement to a native returning 1 —
the statement's EvalResult value is Nil, not the call's return value. -/
theorem statement_value_nil_unless_return_witness :
    evalStmt 4 ⟨[], [("f", .fn (.number 1) (some (.change (Ts.mkEdit 0 1 ['q']))))]⟩
      (.callStmt "f" []) =
      some (⟨[], [("f", .fn (.number 1) (some (.change (Ts.mkEdit 0 1 ['q']))))]⟩,
        ⟨.nil, false, none, some (.change (Ts.mkEdit 0 1 ['q']))⟩) ∧
    (⟨Value.nil, false, none,
      some (.change (Ts.mkEdit 0 1 ['q']))⟩ : EvalResult).value = Value.nil :=
  ⟨rfl, statement_value_nil_unless_return 4
    ⟨[], [("f", .fn (.number 1) (some (.change (Ts.mkEdit 0 1 ['q']))))]⟩
    ⟨[], [("f", .fn (.number 1) (some (.change (Ts.mkEdit 0 1 ['q']))))]⟩
    (.callStmt "f" [])
    ⟨.nil, false, none, some (.change (Ts.mkEdit 0 1 ['q']))⟩ rfl rfl⟩

end Details

end MiniLua
